import Mathlib

/-!
# gotools: schema-to-model generator (`main.go`)

A shallow embedding of the pure parts of `main.go`: the storage-type table
`mappingType` with `getDataType`, the name normaliser `getName`, the tag
builder `Field.GetTag`, the assembly loop of `main` (lines 148-173), the
render arguments built by each per-table worker, the text produced by
`templateOfModel`, and the program order of the effects of `main`.

Go strings are byte sequences.  A byte is a natural number below 256; the
functions below never produce a larger value from bytes below 256.
-/

namespace Gotools

/-! ## Strings -/

/-- A Go string: its bytes, in order. -/
abbrev GoString := List Nat

/-- The bytes (UTF-8) of a string literal of the source. -/
def str (s : String) : GoString :=
  s.toList.flatMap (fun c => (String.utf8EncodeChar c).map UInt8.toNat)

/-- Go `strings.Split(s, sep)` for a separator of one byte: the pieces of `s`
between the occurrences of `sep`; the empty string gives one empty piece. -/
def Split (s : GoString) (sep : Nat) : List GoString :=
  match s with
  | [] => [[]]
  | c :: cs =>
    if c = sep then [] :: Split cs sep
    else
      match Split cs sep with
      | [] => [[c]]
      | seg :: segs => (c :: seg) :: segs

/-- Go `strings.Join(elems, "")`: concatenation. -/
def Join (elems : List GoString) : GoString := elems.flatten

/-- Go `strings.ToUpper(s)` for a string `s` of exactly one byte `b`, which is
what `vv[:1]` is.  An ASCII lower-case letter becomes the upper-case letter,
any other ASCII byte is kept, and a byte from `0x80` on is not valid UTF-8 on
its own, so that `strings.Map` writes U+FFFD (`EF BF BD`) in its place. -/
def ToUpperByte (b : Nat) : GoString :=
  if b < 0x80 then
    if 0x61 ≤ b ∧ b ≤ 0x7A then [b - 0x20] else [b]
  else [0xEF, 0xBF, 0xBD]

/-- One step of the ASCII comparison of `strings.EqualFold`: equal bytes, or
an upper-case letter and its lower-case form. -/
def foldEqByte (x y : Nat) : Bool :=
  let sr := min x y
  let tr := max x y
  tr == sr || (0x41 ≤ sr && sr ≤ 0x5A && tr == sr + 0x20)

/-- Go `strings.EqualFold(s, t)` for a `t` made of ASCII letters that have no
fold partner outside ASCII (every letter but `k` and `s`), as the literal
`"id"` of the only call.  Bytes are compared pairwise; a byte of `s` from
`0x80` on sends Go to its rune loop, where no rune outside ASCII folds to
such a letter, so the answer is `false`. -/
def EqualFold : GoString → GoString → Bool
  | [], [] => true
  | [], _ :: _ => false
  | _ :: _, [] => false
  | x :: s, y :: t =>
    if 0x80 ≤ x ∨ 0x80 ≤ y then false
    else foldEqByte x y && EqualFold s t

/-- Go `strings.ReplaceAll(s, old, new)` for an `old` of one byte. -/
def ReplaceAll (s : GoString) (old : Nat) (new : GoString) : GoString :=
  s.flatMap (fun b => if b = old then new else [b])

/-- Decimal digits of a natural number. -/
def digits (n : Nat) : GoString := (Nat.toDigits 10 n).map Char.toNat

/-- What `%d` prints for a Go `int`. -/
def formatInt (n : Int) : GoString :=
  if n < 0 then 0x2D :: digits n.natAbs else digits n.natAbs

/-- An operand of `fmt.Sprintf`. -/
inductive Arg where
  | s (v : GoString)
  | d (v : Int)

/-- Go `fmt.Sprintf` for a format whose verbs are `%s` with a string operand
and `%d` with an integer operand, one operand per verb. -/
def Sprintf : GoString → List Arg → GoString
  | [], _ => []
  | 0x25 :: 0x73 :: rest, Arg.s v :: args => v ++ Sprintf rest args
  | 0x25 :: 0x64 :: rest, Arg.d v :: args => formatInt v ++ Sprintf rest args
  | c :: rest, args => c :: Sprintf rest args

/-! ## Maps -/

/-- A Go `map[string]V`: its entries, every key at most once.  The order of
the entries is the order of first insertion; Go leaves it unspecified. -/
abbrev GoMap (V : Type) := List (GoString × V)

/-- The value of `m[key]` with its `ok` flag. -/
def mapGet {V : Type} : GoMap V → GoString → Option V
  | [], _ => none
  | (k, v) :: m, key => if k = key then some v else mapGet m key

/-- The map after `m[key] = v`. -/
def mapSet {V : Type} : GoMap V → GoString → V → GoMap V
  | [], key, v => [(key, v)]
  | (k, w) :: m, key, v =>
    if k = key then (k, v) :: m else (k, w) :: mapSet m key v

/-- The keys of a map. -/
def mapKeys {V : Type} (m : GoMap V) : List GoString := m.map Prod.fst

/-! ## `mappingType`, `getDataType`, `getName` -/

/-- The table `mappingType` (main.go, 63-77). -/
def mappingType : GoMap GoString :=
  [ (str "int", str "int"),
    (str "varchar", str "string"),
    (str "text", str "string"),
    (str "bigint", str "int64"),
    (str "smallint", str "int"),
    (str "tinyint", str "int"),
    (str "double", str "float64"),
    (str "date", str "time.Time"),
    (str "decimal", str "float64"),
    (str "json", str "string"),
    (str "datetime", str "time.Time"),
    (str "longtext", str "string"),
    (str "timestamp", str "int64") ]

/-- The function `getDataType` (main.go, 256-262). -/
def getDataType (v : GoString) : GoString :=
  match mapGet mappingType v with
  | some t => t
  | none => str "string"

/-- The loop of `getName`: `nvs = append(nvs, strings.ToUpper(vv[:1])+vv[1:])`
for each `vv`; `vv[:1]` of an empty `vv` is out of range, the fault `none`. -/
def getNameLoop : List GoString → List GoString → Option (List GoString)
  | [], nvs => some nvs
  | [] :: _, _ => none
  | (c :: rest) :: vs, nvs => getNameLoop vs (nvs ++ [ToUpperByte c ++ rest])

/-- The function `getName` (main.go, 247-254); `none` is the run-time fault. -/
def getName (v : GoString) : Option GoString :=
  (getNameLoop (Split v 0x5F) []).map Join

/-! ## Records -/

/-- The struct `Table`: one column of the catalog (main.go, 84-93). -/
structure Table where
  Name : GoString
  ColumnName : GoString
  ColumnDefault : GoString
  IsNull : GoString
  DataType : GoString
  ColumnKey : GoString
  ColumnComment : GoString
  DataLength : Int
  deriving DecidableEq

/-- The struct `Field` (main.go, 96-106). -/
structure Field where
  Name : GoString
  /-- The field `Type` of the source; `Type` is reserved here. -/
  Type_ : GoString
  ColumnName : GoString
  ColumnType : GoString
  Comment : GoString
  Default : GoString
  ColumnLength : Int
  IsNull : Bool
  IsPrimaryKey : Bool
  deriving DecidableEq

/-- The method `Field.GetTag` (main.go, 108-116). -/
def Field.GetTag (f : Field) : GoString :=
  Sprintf (str "`gorm:\"column:%s;type:%s;size:%d;comment:%s\"`")
    [ Arg.s f.ColumnName,
      Arg.s f.ColumnType,
      Arg.d f.ColumnLength,
      Arg.s (ReplaceAll (ReplaceAll f.Comment 0x22 [0x27]) 0x5C [0x2F]) ]

/-! ## The assembly loop of `main` -/

/-- The four maps filled by the loop (main.go, 144-147). -/
structure Assembly where
  tableOfFields : GoMap (List Field)
  tableOfBaseModel : GoMap Unit
  tableOfName : GoMap GoString
  tableOfPackages : GoMap (GoMap Unit)
  deriving DecidableEq

/-- The maps before the loop, all empty. -/
def Assembly.empty : Assembly := ⟨[], [], [], []⟩

/-- The `Field` appended for a column that is not the identity column
(main.go, 162-172); `name` is `getName(table.ColumnName)`. -/
def newField (table : Table) (name dataType : GoString) : Field :=
  { Name := name
    ColumnName := table.ColumnName
    Type_ := dataType
    ColumnType := table.DataType
    ColumnLength := table.DataLength
    Comment := table.ColumnComment
    IsNull := table.IsNull = str "Yes"
    IsPrimaryKey := table.ColumnKey = str "PRI"
    Default := table.ColumnDefault }

/-- Lines 149-152: a table seen for the first time gets an empty field list
and an empty package set. -/
def registerTable (st : Assembly) (table : Table) : Assembly :=
  match mapGet st.tableOfFields table.Name with
  | some _ => st
  | none =>
    { st with
      tableOfFields := mapSet st.tableOfFields table.Name []
      tableOfPackages := mapSet st.tableOfPackages table.Name [] }

/-- Lines 155-157: `tableOfPackages[table.Name]["time"] = struct{}{}` when the
mapped type is `time.Time`; a write into a missing (nil) inner map faults. -/
def registerPackage (st : Assembly) (table : Table) (dataType : GoString) :
    Option Assembly :=
  if dataType = str "time.Time" then
    match mapGet st.tableOfPackages table.Name with
    | none => none
    | some pk =>
      some { st with
        tableOfPackages :=
          mapSet st.tableOfPackages table.Name (mapSet pk (str "time") ()) }
  else some st

/-- One pass through the body of the loop (main.go, 148-173) for the record
`table`; `none` is a run-time fault, which ends the program. -/
def assembleStep (st : Assembly) (table : Table) : Option Assembly :=
  let st1 := registerTable st table
  match getName table.Name with
  | none => none
  | some name =>
    let st2 := { st1 with tableOfName := mapSet st1.tableOfName table.Name name }
    let dataType := getDataType table.DataType
    match registerPackage st2 table dataType with
    | none => none
    | some st3 =>
      if EqualFold table.ColumnName (str "id") then
        some { st3 with
          tableOfBaseModel := mapSet st3.tableOfBaseModel table.Name () }
      else
        match getName table.ColumnName with
        | none => none
        | some fname =>
          some { st3 with
            tableOfFields :=
              mapSet st3.tableOfFields table.Name
                ((mapGet st3.tableOfFields table.Name).getD [] ++
                  [newField table fname dataType]) }

/-- The loop from a given state of the maps. -/
def assembleFrom (st : Assembly) : List Table → Option Assembly
  | [] => some st
  | table :: rest =>
    match assembleStep st table with
    | none => none
    | some st1 => assembleFrom st1 rest

/-- The assembly loop of `main` on the records `tables`. -/
def assemble (tables : List Table) : Option Assembly :=
  assembleFrom Assembly.empty tables

/-! ## The per-table workers -/

/-- The values of `args` that a worker hands to the template (209-221). -/
structure RenderArgs where
  baseModel : GoString
  packages : List GoString
  table : GoString
  model : GoString
  fields : List Field
  deriving DecidableEq

/-- The `args` built by the worker of `table` with `fields` (199-221).  A
`range` over the package set of a table without one visits nothing. -/
def renderArgs (st : Assembly) (table : GoString) (fields : List Field) :
    RenderArgs :=
  let modelName :=
    match mapGet st.tableOfName table with
    | some n => n
    | none => table
  let packages := mapKeys ((mapGet st.tableOfPackages table).getD [])
  { baseModel := if (mapGet st.tableOfBaseModel table).isSome then str "BaseModel" else []
    packages := if packages.length > 0 then packages else []
    table := table
    model := modelName
    fields := fields }

/-- The render arguments of the workers started by `for table, fields :=
range tableOfFields` (195), one for each key. -/
def workers (st : Assembly) : List RenderArgs :=
  st.tableOfFields.map (fun e => renderArgs st e.1 e.2)

/-- The text written by `temp.Execute` for `templateOfModel` (main.go, 40-62)
on `args`: the literal text of the template with its actions carried out. -/
def templateOfModel (args : RenderArgs) : GoString :=
  str "package global\n\n" ++
  (if args.packages.length > 0 then
    str "\nimport (\n\t" ++
      (args.packages.map (fun p => str "\"" ++ p ++ str "\"\n\t")).flatten ++
      str "\n)\n"
   else []) ++
  str "\n\ntype " ++ args.model ++ str " struct \x7b\n\t" ++ args.baseModel ++
  str "\n\t\n\t" ++
  (args.fields.map (fun f =>
    f.Name ++ str " " ++ f.Type_ ++ str "  " ++ f.GetTag ++ str " // " ++
      f.Name ++ str " " ++ f.Comment ++ str "\n\t")).flatten ++
  str "\n\x7d\n\t\nfunc (m " ++ args.model ++
  str ") Table() string \x7b\n\treturn \"" ++ args.table ++
  str "\"\n\x7d\n\t\nfunc (m " ++ args.model ++
  str ") TableName() string \x7b\n\treturn m.Table()\n\x7d"

/-- The base name of the file of a worker: `fmt.Sprintf("%s.go", table)`. -/
def fileName (table : GoString) : GoString :=
  Sprintf (str "%s.go") [Arg.s table]

/-! ## Program order of the effects of `main` -/

/-- The steps of `main` after the loop that touch the file system or start a
goroutine. -/
inductive Effect where
  /-- The statement `go func() { baseModel(dir) ... }()` of lines 183-188. -/
  | startBaseModel (dir : GoString)
  /-- The call `os.MkdirAll(dir, os.ModePerm)` of line 192. -/
  | mkdirAll (dir : GoString)
  /-- The statement `go func(table, fields, wg)` of line 196. -/
  | startTable (args : RenderArgs)
  /-- The call `wg.Wait()` of line 244. -/
  | wait
  deriving DecidableEq

/-- The effects of lines 182-244 in program order, for the output directory
`dir` (the value of `path.Join("models", time.Now().Format(...))`). -/
def mainEffects (dir : GoString) (st : Assembly) : List Effect :=
  (if st.tableOfBaseModel.length > 0 then [Effect.startBaseModel dir] else []) ++
  [Effect.mkdirAll dir] ++
  (workers st).map Effect.startTable ++
  [Effect.wait]

/-- A record of the catalog with only the attributes of the scenarios. -/
def column (table name dataType key : GoString) (length : Int) : Table :=
  { Name := table, ColumnName := name, ColumnDefault := [], IsNull := [],
    DataType := dataType, ColumnKey := key, ColumnComment := [],
    DataLength := length }

/-- The catalog of scenario 1: table `users`. -/
def usersCatalog : List Table :=
  [ column (str "users") (str "id") (str "int") (str "PRI") 0,
    column (str "users") (str "user_name") (str "varchar") [] 64,
    column (str "users") (str "created_at") (str "datetime") [] 0 ]

/-- The catalog of scenario 2: table `logs` with the single column `id`. -/
def logsCatalog : List Table :=
  [ column (str "logs") (str "id") (str "int") (str "PRI") 0 ]

/-- A catalog whose identity column has a date-time type. -/
def eventsCatalog : List Table :=
  [ column (str "events") (str "id") (str "datetime") (str "PRI") 0 ]

/-- The text of `users.go` in scenario 1. -/
def usersText : GoString :=
  str ("package global\n\n\nimport (\n\t\"time\"\n\t\n)\n\n\n" ++
    "type Users struct \x7b\n\tBaseModel\n\t\n\t" ++
    "UserName string  `gorm:\"column:user_name;type:varchar;size:64;comment:\"` // UserName \n\t" ++
    "CreatedAt time.Time  `gorm:\"column:created_at;type:datetime;size:0;comment:\"` // CreatedAt \n\t" ++
    "\n\x7d\n\t\nfunc (m Users) Table() string \x7b\n\treturn \"users\"\n\x7d\n\t\n" ++
    "func (m Users) TableName() string \x7b\n\treturn m.Table()\n\x7d")

/-- The render arguments of the worker of `users` in scenario 1. -/
def usersArgs : RenderArgs :=
  { baseModel := str "BaseModel"
    packages := [str "time"]
    table := str "users"
    model := str "Users"
    fields :=
      [ { Name := str "UserName", Type_ := str "string",
          ColumnName := str "user_name", ColumnType := str "varchar",
          Comment := [], Default := [], ColumnLength := 64, IsNull := false,
          IsPrimaryKey := false },
        { Name := str "CreatedAt", Type_ := str "time.Time",
          ColumnName := str "created_at", ColumnType := str "datetime",
          Comment := [], Default := [], ColumnLength := 0, IsNull := false,
          IsPrimaryKey := false } ] }

/-- The render arguments of the worker of `events`. -/
def eventsArgs : RenderArgs :=
  { baseModel := str "BaseModel", packages := [str "time"],
    table := str "events", model := str "Events", fields := [] }

/-- A catalog of one table, `_logs`, with the single column `id`. -/
def underscoreCatalog : List Table :=
  [ column (str "_logs") (str "id") (str "int") (str "PRI") 0 ]

/-- Whether a record is an identity column: line 158. -/
def isIdentity (table : Table) : Bool := EqualFold table.ColumnName (str "id")

/-! ## Reading of the specification -/

/-- What one pass of the loop of `getName` appends for a piece. -/
def upperFirst : GoString → GoString
  | [] => []
  | c :: rest => ToUpperByte c ++ rest

/-- The upper-case form of an ASCII byte: a lower-case letter loses `0x20`,
any other byte is kept. -/
def upperAscii (b : Nat) : Nat := if 0x61 ≤ b ∧ b ≤ 0x7A then b - 0x20 else b

/-- A segment with its first character upper-cased and the rest unchanged,
for a first character in ASCII. -/
def capitalise : GoString → GoString
  | [] => []
  | c :: rest => upperAscii c :: rest

/-- An upper-case ASCII letter. -/
def isUpperByte (b : Nat) : Bool := 0x41 ≤ b && b ≤ 0x5A

/-- An ASCII letter. -/
def isLetterByte (b : Nat) : Bool := isUpperByte b || (0x61 ≤ b && b ≤ 0x7A)

/-- A piece that is not empty and starts with an ASCII byte. -/
def startsAscii : GoString → Bool
  | [] => false
  | c :: _ => decide (c < 0x80)

/-- A piece that starts with an ASCII letter and has no upper-case ASCII
letter after it. -/
def oneWord : GoString → Bool
  | [] => false
  | c :: rest => isLetterByte c && rest.all (fun b => !isUpperByte b)

/-- Splitting at each upper-case ASCII letter (`A` to `Z`): a new piece starts
at every such byte of the string, and at no other byte. -/
def splitUpper : GoString → List GoString
  | [] => []
  | [c] => [[c]]
  | c :: d :: cs =>
    if isUpperByte d then [c] :: splitUpper (d :: cs)
    else
      match splitUpper (d :: cs) with
      | [] => [[c]]
      | seg :: segs => (c :: seg) :: segs

/-- The comment of a tag as the specification words it: a double quote
becomes a single quote, a backslash becomes a forward slash. -/
def sanitize (s : GoString) : GoString :=
  s.map (fun b => if b = 0x22 then 0x27 else if b = 0x5C then 0x2F else b)

/-- The table names that occur in a column list. -/
def tableNames (tables : List Table) : List GoString := tables.map (fun r => r.Name)

/-- The records of table `t`, in input order. -/
def columnsOf (tables : List Table) (t : GoString) : List Table :=
  tables.filter (fun r => decide (r.Name = t))

/-- The records of table `t` that are not identity columns, in input order. -/
def fieldColumns (tables : List Table) (t : GoString) : List Table :=
  (columnsOf tables t).filter (fun r => !isIdentity r)

/-- Whether some column of table `t` is an identity column. -/
def hasIdentity (tables : List Table) (t : GoString) : Bool :=
  (columnsOf tables t).any isIdentity

/-- Whether some column of table `t` has a storage type mapped to
`time.Time`. -/
def hasTimeColumn (tables : List Table) (t : GoString) : Bool :=
  (columnsOf tables t).any (fun r => decide (getDataType r.DataType = str "time.Time"))

/-- No call of `getName` in the loop faults: every table name, and every
column name that is not an identity column, splits into non-empty pieces. -/
def namesOk (tables : List Table) : Prop :=
  ∀ r ∈ tables, getName r.Name ≠ none ∧
    (isIdentity r = false → getName r.ColumnName ≠ none)

/-- The maps after the loop has passed over `tables`, in closed form. -/
structure Assembled (tables : List Table) (st : Assembly) : Prop where
  fields : ∀ t, mapGet st.tableOfFields t =
    if t ∈ tableNames tables then
      some ((fieldColumns tables t).map (fun r =>
        newField r ((getName r.ColumnName).getD []) (getDataType r.DataType)))
    else none
  base : ∀ t, mapGet st.tableOfBaseModel t =
    if hasIdentity tables t = true then some () else none
  name : ∀ t, mapGet st.tableOfName t =
    if t ∈ tableNames tables then getName t else none
  pkgs : ∀ t, mapGet st.tableOfPackages t =
    if t ∈ tableNames tables then
      some (if hasTimeColumn tables t = true then [(str "time", ())] else [])
    else none
  nodup : (mapKeys st.tableOfFields).Nodup


/-! ## Lemmas on strings -/

theorem Split_ne_nil (s : GoString) (sep : Nat) : Split s sep ≠ [] := by
  induction s with
  | nil => simp [Split]
  | cons c cs ih =>
    unfold Split
    split
    · simp
    · split <;> simp

theorem Split_sep_cons (cs : GoString) (sep : Nat) :
    Split (sep :: cs) sep = [] :: Split cs sep := by
  simp [Split]

theorem Split_cons_of_ne (c : Nat) (cs : GoString) (sep : Nat) (h : c ≠ sep) :
    ∃ seg segs, Split cs sep = seg :: segs ∧
      Split (c :: cs) sep = (c :: seg) :: segs := by
  rcases hS : Split cs sep with _ | ⟨seg, segs⟩
  · exact absurd hS (Split_ne_nil cs sep)
  · exact ⟨seg, segs, rfl, by rw [Split, if_neg h, hS]⟩

theorem getLast?_cons_eq_sep (c sep : Nat) (cs : GoString) (h : c ≠ sep) :
    (c :: cs).getLast? = some sep ↔ cs.getLast? = some sep := by
  cases cs with
  | nil => simp [h]
  | cons d ds => simp [List.getLast?_cons_cons]

theorem infix_cons_of_ne (c sep : Nat) (cs : GoString) (h : c ≠ sep) :
    [sep, sep] <:+: c :: cs ↔ [sep, sep] <:+: cs := by
  rw [List.infix_cons_iff]
  constructor
  · rintro (hp | hi)
    · have := (List.cons_prefix_cons.mp hp).1
      exact absurd this.symm h
    · exact hi
  · exact Or.inr

/-- Where the empty piece sits: among the pieces after the first one, and
among all pieces. -/
theorem nil_mem_Split_aux (sep : Nat) (s : GoString) :
    ([] ∈ (Split s sep).tail ↔ s.getLast? = some sep ∨ [sep, sep] <:+: s) ∧
    ([] ∈ Split s sep ↔
      s = [] ∨ s.head? = some sep ∨ s.getLast? = some sep ∨ [sep, sep] <:+: s) := by
  induction s with
  | nil => simp [Split]
  | cons c cs ih =>
    obtain ⟨ihT, ihE⟩ := ih
    by_cases h : c = sep
    · subst h
      rw [Split_sep_cons]
      refine ⟨?_, by simp⟩
      simp only [List.tail_cons]
      rw [ihE]
      cases cs with
      | nil => simp
      | cons d ds =>
        rw [List.getLast?_cons_cons, @List.infix_cons_iff _ [c, c] c (d :: ds)]
        simp only [List.cons_prefix_cons, List.head?_cons, Option.some.injEq]
        have hp : ([] : GoString) <+: ds := List.nil_prefix
        have hn : ¬ (d :: ds = []) := by simp
        constructor
        · rintro (h | h | h | h)
          · exact absurd h hn
          · exact Or.inr (Or.inl ⟨trivial, h.symm, hp⟩)
          · exact Or.inl h
          · exact Or.inr (Or.inr h)
        · rintro (h | ⟨_, h, _⟩ | h)
          · exact Or.inr (Or.inr (Or.inl h))
          · exact Or.inr (Or.inl h.symm)
          · exact Or.inr (Or.inr (Or.inr h))
    · obtain ⟨seg, segs, hS, hS2⟩ := Split_cons_of_ne c cs sep h
      rw [hS2]
      rw [hS] at ihT
      simp only [List.tail_cons] at ihT ⊢
      have hne : ¬ (some c = some sep) := by simpa using h
      refine ⟨?_, ?_⟩
      · rw [ihT, getLast?_cons_eq_sep c sep cs h, infix_cons_of_ne c sep cs h]
      · rw [List.mem_cons, ihT, getLast?_cons_eq_sep c sep cs h,
          infix_cons_of_ne c sep cs h]
        simp [hne]

theorem getNameLoop_eq_none (vs nvs : List GoString) :
    getNameLoop vs nvs = none ↔ [] ∈ vs := by
  induction vs generalizing nvs with
  | nil => simp [getNameLoop]
  | cons vv vs ih =>
    cases vv with
    | nil => simp [getNameLoop]
    | cons c rest => simp [getNameLoop, ih]

theorem getNameLoop_eq_some (vs nvs : List GoString) (h : [] ∉ vs) :
    getNameLoop vs nvs = some (nvs ++ vs.map upperFirst) := by
  induction vs generalizing nvs with
  | nil => simp [getNameLoop]
  | cons vv vs ih =>
    cases vv with
    | nil => simp at h
    | cons c rest =>
      have h2 : [] ∉ vs := fun hm => h (List.mem_cons_of_mem _ hm)
      simp [getNameLoop, ih _ h2, upperFirst]

theorem getName_eq_none (v : GoString) :
    getName v = none ↔ [] ∈ Split v 0x5F := by
  simp [getName, getNameLoop_eq_none]

theorem getName_eq_some (v : GoString) (h : [] ∉ Split v 0x5F) :
    getName v = some (Join ((Split v 0x5F).map upperFirst)) := by
  simp [getName, getNameLoop_eq_some _ _ h]

theorem upperFirst_eq_capitalise (seg : GoString)
    (h : ∀ c ∈ seg.head?, c < 0x80) : upperFirst seg = capitalise seg := by
  cases seg with
  | nil => rfl
  | cons c rest =>
    have hc : c < 0x80 := h c (by simp)
    by_cases hl : 0x61 ≤ c ∧ c ≤ 0x7A <;>
      simp [upperFirst, capitalise, ToUpperByte, upperAscii, hc, hl]

/-- A piece that starts with an upper-case letter and has no other one is cut
off whole by `splitUpper`, when what follows is empty or starts with an
upper-case letter. -/
theorem splitUpper_segment (rest w : GoString) (c : Nat)
    (hrest : ∀ b ∈ rest, isUpperByte b = false)
    (hw : ∀ b ∈ w.head?, isUpperByte b = true) :
    splitUpper (c :: (rest ++ w)) = (c :: rest) :: splitUpper w := by
  induction rest generalizing c with
  | nil =>
    cases w with
    | nil => simp [splitUpper]
    | cons u w =>
      have hu : isUpperByte u = true := hw u (by simp)
      simp [splitUpper, hu]
  | cons d rest ih =>
    have hd : isUpperByte d = false := hrest d (List.mem_cons_self d rest)
    have := ih d (fun b hb => hrest b (List.mem_cons_of_mem d hb))
    simp only [List.cons_append] at this ⊢
    rw [splitUpper, this]
    simp [hd]

theorem splitUpper_flatten (segs : List GoString)
    (h : ∀ seg ∈ segs, ∃ c rest, seg = c :: rest ∧ isUpperByte c = true ∧
      ∀ b ∈ rest, isUpperByte b = false) :
    splitUpper segs.flatten = segs := by
  induction segs with
  | nil => simp [splitUpper]
  | cons seg segs ih =>
    obtain ⟨c, rest, rfl, hc, hrest⟩ := h _ (List.mem_cons_self _ _)
    have ih2 := ih (fun s hs => h s (List.mem_cons_of_mem _ hs))
    have hw : ∀ b ∈ segs.flatten.head?, isUpperByte b = true := by
      cases segs with
      | nil => simp
      | cons seg2 segs2 =>
        obtain ⟨c2, rest2, rfl, hc2, _⟩ :=
          h _ (List.mem_cons_of_mem _ (List.mem_cons_self _ _))
        simpa using hc2
    have := splitUpper_segment rest segs.flatten c hrest hw
    simp only [List.flatten_cons, List.cons_append]
    rw [this, ih2]

/-! ## Lemmas on maps -/

theorem mapGet_mapSet {V : Type} (m : GoMap V) (k : GoString) (v : V)
    (t : GoString) :
    mapGet (mapSet m k v) t = if k = t then some v else mapGet m t := by
  induction m with
  | nil => simp [mapSet, mapGet]
  | cons e m ih =>
    obtain ⟨k1, w⟩ := e
    by_cases h1 : k1 = k
    · subst h1
      by_cases h2 : k1 = t <;> simp [mapSet, mapGet, h2]
    · by_cases h2 : k1 = t
      · subst h2
        have h3 : ¬ k = k1 := fun h => h1 h.symm
        simp [mapSet, mapGet, h1, h3]
      · simp [mapSet, mapGet, h1, h2, ih]

theorem mapKeys_mapSet_of_mem {V : Type} (m : GoMap V) (k : GoString) (v : V)
    (h : k ∈ mapKeys m) : mapKeys (mapSet m k v) = mapKeys m := by
  induction m with
  | nil => simp [mapKeys] at h
  | cons e m ih =>
    obtain ⟨k1, w⟩ := e
    by_cases h1 : k1 = k
    · simp [mapSet, mapKeys, h1]
    · have h2 : k ∈ mapKeys m := by
        simp only [mapKeys, List.map_cons, List.mem_cons] at h
        rcases h with h | h
        · exact absurd h.symm h1
        · exact h
      have := ih h2
      simp only [mapKeys] at this
      simp [mapSet, mapKeys, h1, this]

theorem mapKeys_mapSet_of_not_mem {V : Type} (m : GoMap V) (k : GoString) (v : V)
    (h : k ∉ mapKeys m) : mapKeys (mapSet m k v) = mapKeys m ++ [k] := by
  induction m with
  | nil => simp [mapKeys, mapSet]
  | cons e m ih =>
    obtain ⟨k1, w⟩ := e
    simp only [mapKeys, List.map_cons, List.mem_cons, not_or] at h
    have h1 : ¬ k1 = k := fun h2 => h.1 h2.symm
    have := ih h.2
    simp only [mapKeys] at this
    simp [mapSet, mapKeys, h1, this]

theorem mem_mapKeys_iff {V : Type} (m : GoMap V) (t : GoString) :
    t ∈ mapKeys m ↔ (mapGet m t).isSome = true := by
  induction m with
  | nil => simp [mapKeys, mapGet]
  | cons e m ih =>
    obtain ⟨k1, w⟩ := e
    simp only [mapKeys] at ih
    by_cases h : k1 = t
    · simp [mapKeys, mapGet, h]
    · have h2 : ¬ t = k1 := fun h3 => h h3.symm
      simp [mapKeys, mapGet, h, h2, ih]

theorem nodup_mapKeys_mapSet {V : Type} (m : GoMap V) (k : GoString) (v : V)
    (h : (mapKeys m).Nodup) : (mapKeys (mapSet m k v)).Nodup := by
  by_cases hk : k ∈ mapKeys m
  · rw [mapKeys_mapSet_of_mem m k v hk]; exact h
  · rw [mapKeys_mapSet_of_not_mem m k v hk]
    exact List.Nodup.append h (List.nodup_singleton k) (by simpa using hk)

/-- In a map without a repeated key, the entries of a key are the one that
`mapGet` finds. -/
theorem filter_key_eq {V : Type} (m : GoMap V) (t : GoString) (v : V)
    (hn : (mapKeys m).Nodup) (hg : mapGet m t = some v) :
    m.filter (fun e => decide (e.1 = t)) = [(t, v)] := by
  induction m with
  | nil => simp [mapGet] at hg
  | cons e m ih =>
    obtain ⟨k1, w⟩ := e
    simp only [mapKeys, List.map_cons, List.nodup_cons] at hn
    by_cases h : k1 = t
    · subst h
      simp only [mapGet, if_true, Option.some.injEq] at hg
      subst hg
      have : m.filter (fun e => decide (e.1 = k1)) = [] := by
        rw [List.filter_eq_nil_iff]
        intro e he hd
        simp only [decide_eq_true_eq] at hd
        exact hn.1 (hd ▸ List.mem_map_of_mem Prod.fst he)
      simp [List.filter_cons, this]
    · simp only [mapGet, if_neg h] at hg
      have := ih hn.2 hg
      simp [List.filter_cons, h, this]

/-! ## One pass of the loop -/

theorem registerTable_fields (st : Assembly) (r : Table) (t : GoString) :
    mapGet (registerTable st r).tableOfFields t =
      if r.Name = t then some ((mapGet st.tableOfFields t).getD [])
      else mapGet st.tableOfFields t := by
  unfold registerTable
  split
  · rename_i fs hfs
    by_cases h : r.Name = t
    · subst h; simp [hfs]
    · simp [h]
  · rename_i hfs
    by_cases h : r.Name = t
    · subst h; simp [mapGet_mapSet, hfs]
    · simp [mapGet_mapSet, h]

theorem registerTable_packages (st : Assembly) (r : Table) (t : GoString) :
    mapGet (registerTable st r).tableOfPackages t =
      if r.Name = t ∧ mapGet st.tableOfFields t = none then some []
      else mapGet st.tableOfPackages t := by
  unfold registerTable
  split
  · rename_i fs hfs
    by_cases h : r.Name = t
    · subst h; simp [hfs]
    · simp [h]
  · rename_i hfs
    by_cases h : r.Name = t
    · subst h; simp [mapGet_mapSet, hfs]
    · simp [mapGet_mapSet, h]

theorem registerTable_rest (st : Assembly) (r : Table) :
    (registerTable st r).tableOfBaseModel = st.tableOfBaseModel ∧
    (registerTable st r).tableOfName = st.tableOfName := by
  unfold registerTable
  split <;> simp

theorem registerTable_nodup (st : Assembly) (r : Table)
    (h : (mapKeys st.tableOfFields).Nodup) :
    (mapKeys (registerTable st r).tableOfFields).Nodup := by
  unfold registerTable
  split
  · exact h
  · exact nodup_mapKeys_mapSet _ _ _ h

theorem registerPackage_some (st st3 : Assembly) (r : Table) (dt : GoString)
    (h : registerPackage st r dt = some st3) :
    st3.tableOfFields = st.tableOfFields ∧
    st3.tableOfBaseModel = st.tableOfBaseModel ∧
    st3.tableOfName = st.tableOfName ∧
    ∀ t, mapGet st3.tableOfPackages t =
      if r.Name = t ∧ dt = str "time.Time" then
        (mapGet st.tableOfPackages t).map (fun pk => mapSet pk (str "time") ())
      else mapGet st.tableOfPackages t := by
  unfold registerPackage at h
  split at h
  · rename_i hdt
    split at h
    · exact absurd h (by simp)
    · rename_i pk hpk
      simp only [Option.some.injEq] at h
      subst h
      refine ⟨rfl, rfl, rfl, fun t => ?_⟩
      by_cases ht : r.Name = t
      · subst ht; simp [mapGet_mapSet, hdt, hpk]
      · simp [mapGet_mapSet, ht]
  · rename_i hdt
    simp only [Option.some.injEq] at h
    subst h
    exact ⟨rfl, rfl, rfl, fun t => by simp [hdt]⟩

theorem registerPackage_isSome (st : Assembly) (r : Table) (dt : GoString)
    (h : (mapGet st.tableOfPackages r.Name).isSome = true) :
    (registerPackage st r dt).isSome = true := by
  unfold registerPackage
  split
  · split
    · rename_i hpk; rw [hpk] at h; exact absurd h (by simp)
    · rfl
  · rfl

/-- The shape of a pass that does not fault. -/
theorem assembleStep_some (st st1 : Assembly) (r : Table)
    (h : assembleStep st r = some st1) :
    ∃ name st3,
      getName r.Name = some name ∧
      registerPackage
        { registerTable st r with
          tableOfName := mapSet (registerTable st r).tableOfName r.Name name }
        r (getDataType r.DataType) = some st3 ∧
      ((isIdentity r = true ∧
          st1 = { st3 with
            tableOfBaseModel := mapSet st3.tableOfBaseModel r.Name () }) ∨
       (isIdentity r = false ∧ ∃ fname,
          getName r.ColumnName = some fname ∧
          st1 = { st3 with
            tableOfFields :=
              mapSet st3.tableOfFields r.Name
                ((mapGet st3.tableOfFields r.Name).getD [] ++
                  [newField r fname (getDataType r.DataType)]) })) := by
  unfold assembleStep at h
  split at h
  · exact absurd h (by simp)
  · rename_i name hname
    simp only at h
    split at h
    · exact absurd h (by simp)
    · rename_i st3 hst3
      refine ⟨name, st3, hname, hst3, ?_⟩
      split at h
      · rename_i hid
        simp only [Option.some.injEq] at h
        exact Or.inl ⟨hid, h.symm⟩
      · rename_i hid
        split at h
        · exact absurd h (by simp)
        · rename_i fname hfname
          simp only [Option.some.injEq] at h
          exact Or.inr ⟨by simpa [isIdentity] using hid, fname, hfname, h.symm⟩

/-! ## The loop in closed form -/

theorem mem_tableNames_snoc (tables : List Table) (r : Table) (t : GoString) :
    t ∈ tableNames (tables ++ [r]) ↔ t ∈ tableNames tables ∨ r.Name = t := by
  simp only [tableNames, List.map_append, List.mem_append, List.map_cons,
    List.map_nil, List.mem_singleton]
  constructor
  · rintro (h | h)
    · exact Or.inl h
    · exact Or.inr h.symm
  · rintro (h | h)
    · exact Or.inl h
    · exact Or.inr h.symm

theorem columnsOf_snoc (tables : List Table) (r : Table) (t : GoString) :
    columnsOf (tables ++ [r]) t =
      columnsOf tables t ++ (if r.Name = t then [r] else []) := by
  by_cases h : r.Name = t <;> simp [columnsOf, List.filter_append, h]

theorem columnsOf_of_not_mem (tables : List Table) (t : GoString)
    (h : t ∉ tableNames tables) : columnsOf tables t = [] := by
  simp only [columnsOf, List.filter_eq_nil_iff, decide_eq_true_eq]
  intro r hr hn
  exact h (hn ▸ List.mem_map_of_mem (fun r => r.Name) hr)

theorem hasTimeColumn_snoc (tables : List Table) (r : Table) (t : GoString) :
    hasTimeColumn (tables ++ [r]) t =
      (hasTimeColumn tables t ||
        (decide (r.Name = t) && decide (getDataType r.DataType = str "time.Time"))) := by
  by_cases h : r.Name = t <;> simp [hasTimeColumn, columnsOf_snoc, h]

theorem Assembled_empty : Assembled [] Assembly.empty := by
  constructor <;> intros <;>
    simp [Assembly.empty, mapGet, tableNames, hasIdentity, columnsOf, mapKeys]

/-- A pass that does not fault takes the closed form one record further. -/
theorem Assembled_step (tables : List Table) (st st1 : Assembly) (r : Table)
    (hI : Assembled tables st) (h : assembleStep st r = some st1) :
    Assembled (tables ++ [r]) st1 := by
  obtain ⟨name, st3, hname, hst3, hcase⟩ := assembleStep_some st st1 r h
  obtain ⟨hF, hB, hN, hP⟩ := registerPackage_some _ _ _ _ hst3
  simp only at hF hB hN hP
  have hB2 := (registerTable_rest st r).1
  have hN2 := (registerTable_rest st r).2
  refine ⟨?_, ?_, ?_, ?_, ?_⟩
  · -- tableOfFields
    intro t
    have h3 : mapGet st3.tableOfFields t =
        if r.Name = t then some ((mapGet st.tableOfFields t).getD [])
        else mapGet st.tableOfFields t := by
      rw [hF]; exact registerTable_fields st r t
    rcases hcase with ⟨hid, rfl⟩ | ⟨hid, fname, hfname, rfl⟩
    · simp only
      rw [h3, hI.fields t]
      by_cases ht : r.Name = t
      · by_cases hm : t ∈ tableNames tables
        · simp [mem_tableNames_snoc, ht, hm, fieldColumns, columnsOf_snoc, hid]
        · simp [mem_tableNames_snoc, ht, hm, fieldColumns, columnsOf_snoc, hid,
            columnsOf_of_not_mem tables t hm]
      · simp [mem_tableNames_snoc, ht, fieldColumns, columnsOf_snoc]
    · simp only
      rw [mapGet_mapSet]
      by_cases ht : r.Name = t
      · subst ht
        rw [h3, hI.fields r.Name]
        by_cases hm : r.Name ∈ tableNames tables
        · simp [mem_tableNames_snoc, hm, fieldColumns, columnsOf_snoc, hid, hfname]
        · simp [mem_tableNames_snoc, hm, fieldColumns, columnsOf_snoc, hid, hfname,
            columnsOf_of_not_mem tables r.Name hm]
      · rw [if_neg ht, h3, hI.fields t]
        simp [mem_tableNames_snoc, ht, fieldColumns, columnsOf_snoc]
  · -- tableOfBaseModel
    intro t
    rcases hcase with ⟨hid, rfl⟩ | ⟨hid, fname, hfname, rfl⟩
    · simp only
      rw [mapGet_mapSet, hB, hB2, hI.base t]
      by_cases ht : r.Name = t
      · simp [ht, hasIdentity, columnsOf_snoc, hid]
      · simp [ht, hasIdentity, columnsOf_snoc]
    · simp only
      rw [hB, hB2, hI.base t]
      by_cases ht : r.Name = t
      · simp [ht, hasIdentity, columnsOf_snoc, hid]
      · simp [ht, hasIdentity, columnsOf_snoc]
  · -- tableOfName
    intro t
    have h3 : mapGet st3.tableOfName t =
        if r.Name = t then some name else mapGet st.tableOfName t := by
      rw [hN, mapGet_mapSet, hN2]
    have : mapGet st1.tableOfName t = mapGet st3.tableOfName t := by
      rcases hcase with ⟨hid, rfl⟩ | ⟨hid, fname, hfname, rfl⟩ <;> rfl
    rw [this, h3, hI.name t]
    by_cases ht : r.Name = t
    · subst ht; simp [mem_tableNames_snoc, hname]
    · simp [mem_tableNames_snoc, ht]
  · -- tableOfPackages
    intro t
    have : mapGet st1.tableOfPackages t = mapGet st3.tableOfPackages t := by
      rcases hcase with ⟨hid, rfl⟩ | ⟨hid, fname, hfname, rfl⟩ <;> rfl
    have hset : mapSet [(str "time", ())] (str "time") () = [(str "time", ())] := by
      decide
    have hset0 : mapSet ([] : GoMap Unit) (str "time") () = [(str "time", ())] := by
      decide
    rw [this, hP t, registerTable_packages, hI.fields t, hI.pkgs t,
      hasTimeColumn_snoc]
    by_cases ht : r.Name = t
    · by_cases hm : t ∈ tableNames tables
      · by_cases hd : getDataType r.DataType = str "time.Time"
        · by_cases hh : hasTimeColumn tables t = true
          · simp [mem_tableNames_snoc, ht, hm, hd, hh, hset]
          · simp [mem_tableNames_snoc, ht, hm, hd, hh, hset0]
        · simp [mem_tableNames_snoc, ht, hm, hd]
      · have hh : hasTimeColumn tables t = false := by
          simp [hasTimeColumn, columnsOf_of_not_mem tables t hm]
        by_cases hd : getDataType r.DataType = str "time.Time"
        · simp [mem_tableNames_snoc, ht, hm, hd, hh, hset0]
        · simp [mem_tableNames_snoc, ht, hm, hd, hh]
    · simp [mem_tableNames_snoc, ht]
  · -- keys of tableOfFields
    have h3 : (mapKeys st3.tableOfFields).Nodup := by
      rw [hF]; exact registerTable_nodup st r hI.nodup
    rcases hcase with ⟨hid, rfl⟩ | ⟨hid, fname, hfname, rfl⟩
    · exact h3
    · exact nodup_mapKeys_mapSet _ _ _ h3

theorem Assembled_from (rest tables : List Table) (st st1 : Assembly)
    (hI : Assembled tables st) (h : assembleFrom st rest = some st1) :
    Assembled (tables ++ rest) st1 := by
  induction rest generalizing tables st with
  | nil =>
    simp only [assembleFrom, Option.some.injEq] at h
    subst h
    simpa using hI
  | cons r rest ih =>
    unfold assembleFrom at h
    split at h
    · exact absurd h (by simp)
    · rename_i st2 hst2
      have := ih (tables ++ [r]) st2 (Assembled_step tables st st2 r hI hst2) h
      simpa using this

theorem Assembled_assemble (tables : List Table) (st : Assembly)
    (h : assemble tables = some st) : Assembled tables st := by
  have := Assembled_from tables [] Assembly.empty st Assembled_empty h
  simpa using this

/-- A pass faults only in `getName`. -/
theorem assembleStep_isSome (tables : List Table) (st : Assembly) (r : Table)
    (hI : Assembled tables st) (h1 : getName r.Name ≠ none)
    (h2 : isIdentity r = false → getName r.ColumnName ≠ none) :
    ∃ st1, assembleStep st r = some st1 := by
  obtain ⟨name, hname⟩ := Option.ne_none_iff_exists'.mp h1
  have hp : (mapGet (registerTable st r).tableOfPackages r.Name).isSome = true := by
    rw [registerTable_packages, hI.fields, hI.pkgs]
    by_cases hm : r.Name ∈ tableNames tables <;> simp [hm]
  have hreg := registerPackage_isSome
    { registerTable st r with
      tableOfName := mapSet (registerTable st r).tableOfName r.Name name }
    r (getDataType r.DataType) hp
  obtain ⟨st3, hst3⟩ := Option.isSome_iff_exists.mp hreg
  unfold assembleStep
  simp only [hname, hst3]
  by_cases hid : EqualFold r.ColumnName (str "id") = true
  · simp [hid]
  · have hid2 : isIdentity r = false := by simpa [isIdentity] using hid
    obtain ⟨fname, hfname⟩ := Option.ne_none_iff_exists'.mp (h2 hid2)
    simp [hid, hfname]

theorem assembleFrom_isSome (rest tables : List Table) (st : Assembly)
    (hI : Assembled tables st) (h : namesOk rest) :
    ∃ st1, assembleFrom st rest = some st1 := by
  induction rest generalizing tables st with
  | nil => exact ⟨st, rfl⟩
  | cons r rest ih =>
    obtain ⟨h1, h2⟩ := h r (List.mem_cons_self r rest)
    obtain ⟨st2, hst2⟩ := assembleStep_isSome tables st r hI h1 h2
    have hrest : namesOk rest := fun x hx => h x (List.mem_cons_of_mem r hx)
    obtain ⟨st1, hst1⟩ :=
      ih (tables ++ [r]) st2 (Assembled_step tables st st2 r hI hst2) hrest
    exact ⟨st1, by rw [assembleFrom, hst2]; exact hst1⟩

theorem namesOk_of_assembleFrom (rest : List Table) (st st1 : Assembly)
    (h : assembleFrom st rest = some st1) : namesOk rest := by
  induction rest generalizing st with
  | nil => intro r hr; simp at hr
  | cons r rest ih =>
    unfold assembleFrom at h
    split at h
    · exact absurd h (by simp)
    · rename_i st2 hst2
      obtain ⟨name, st3, hname, _, hcase⟩ := assembleStep_some st st2 r hst2
      intro x hx
      rcases List.mem_cons.mp hx with rfl | hx
      · refine ⟨by simp [hname], fun hid => ?_⟩
        rcases hcase with ⟨hid2, _⟩ | ⟨_, fname, hfname, _⟩
        · rw [hid] at hid2; exact absurd hid2 (by simp)
        · simp [hfname]
      · exact ih st2 h x hx

/-- The loop completes exactly when no call of `getName` faults. -/
theorem assemble_isSome_iff (tables : List Table) :
    (∃ st, assemble tables = some st) ↔ namesOk tables :=
  ⟨fun ⟨st, h⟩ => namesOk_of_assembleFrom tables Assembly.empty st h,
   fun h => assembleFrom_isSome tables [] Assembly.empty Assembled_empty h⟩

/-! ## The claims on `getDataType`, `getName` and `GetTag` -/

/-- C1: `getDataType` returns, for each of the 13 keys of `mappingType`, the
value that the table maps it to, and `"string"` for every other name, the
empty name and `"INT"` among them; it is a total function. -/
theorem getDataType_spec :
    mapKeys mappingType =
      [str "int", str "varchar", str "text", str "bigint", str "smallint",
        str "tinyint", str "double", str "date", str "decimal", str "json",
        str "datetime", str "longtext", str "timestamp"] ∧
    (∀ e ∈ mappingType, getDataType e.1 = e.2) ∧
    getDataType (str "bigint") = str "int64" ∧
    getDataType (str "timestamp") = str "int64" ∧
    getDataType (str "date") = str "time.Time" ∧
    getDataType (str "datetime") = str "time.Time" ∧
    getDataType (str "decimal") = str "float64" ∧
    getDataType (str "double") = str "float64" ∧
    (∀ s, s ∉ mapKeys mappingType → getDataType s = str "string") ∧
    getDataType [] = str "string" ∧
    getDataType (str "INT") = str "string" := by
  refine ⟨by decide, by decide, by decide, by decide, by decide, by decide,
    by decide, by decide, ?_, by decide, by decide⟩
  intro s hs
  have : mapGet mappingType s = none := by
    have := (mem_mapKeys_iff mappingType s).not.mp hs
    simpa using this
  simp [getDataType, this]

theorem getDataType_spec_witness :
    str "blob" ∉ mapKeys mappingType ∧ getDataType (str "blob") = str "string" :=
  ⟨by decide, getDataType_spec.2.2.2.2.2.2.2.2.1 (str "blob") (by decide)⟩

/-- C5, as amended: for an identifier `v` whose pieces between underscores
are non-empty and start with an ASCII byte, `getName v` is the concatenation
of the pieces, each with its first byte upper-cased and the rest unchanged;
when moreover each piece starts with an ASCII letter and has no upper-case
ASCII letter (`A` to `Z`) after it, splitting the result at each upper-case
ASCII letter (`A` to `Z`) gives back exactly these capitalised pieces, as
many as `v` has pieces. -/
theorem getName_pascal (v : GoString)
    (h : ∀ seg ∈ Split v 0x5F, startsAscii seg = true) :
    getName v = some (Join ((Split v 0x5F).map capitalise)) ∧
    ((∀ seg ∈ Split v 0x5F, oneWord seg = true) →
      splitUpper (Join ((Split v 0x5F).map capitalise)) =
        (Split v 0x5F).map capitalise ∧
      (splitUpper (Join ((Split v 0x5F).map capitalise))).length =
        (Split v 0x5F).length) := by
  have hne : [] ∉ Split v 0x5F := by
    intro hm
    exact absurd (h [] hm) (by simp [startsAscii])
  have hmap : (Split v 0x5F).map upperFirst = (Split v 0x5F).map capitalise := by
    apply List.map_congr_left
    intro seg hseg
    have hs := h seg hseg
    cases seg with
    | nil => rfl
    | cons c rest =>
      exact upperFirst_eq_capitalise _ (by simpa [startsAscii] using hs)
  refine ⟨by rw [getName_eq_some v hne, hmap], fun h2 => ?_⟩
  have hsplit : splitUpper (Join ((Split v 0x5F).map capitalise)) =
      (Split v 0x5F).map capitalise := by
    apply splitUpper_flatten
    intro seg hseg
    obtain ⟨seg0, hseg0, rfl⟩ := List.mem_map.mp hseg
    have hw := h2 seg0 hseg0
    cases seg0 with
    | nil => exact absurd hw (by simp [oneWord])
    | cons c rest =>
      simp only [oneWord, Bool.and_eq_true, List.all_eq_true, Bool.not_eq_true'] at hw
      refine ⟨upperAscii c, rest, rfl, ?_, hw.2⟩
      have hc := hw.1
      simp only [isLetterByte, isUpperByte, Bool.or_eq_true, Bool.and_eq_true,
        decide_eq_true_eq] at hc ⊢
      unfold upperAscii
      split <;> omega
  exact ⟨hsplit, by rw [hsplit, List.length_map]⟩

theorem getName_pascal_witness :
    getName (str "user_name") = some (str "UserName") ∧
    splitUpper (str "UserName") = [str "User", str "Name"] := by
  have h := getName_pascal (str "user_name") (by decide)
  exact ⟨h.1.trans (by decide), (h.2 (by decide)).1.trans (by decide)⟩

/-- C5 as stated fails: `userName` is one piece, `getName` returns `UserName`,
and splitting that at its upper-case letters `U` and `N` gives two pieces;
and the first character of `é` (bytes `C3 A9`) is not upper-cased, the result
being the bytes `EF BF BD A9`, which are neither `é` nor `É` (`C3 89`). -/
theorem getName_resplit_counterexample :
    [] ∉ Split (str "userName") 0x5F ∧
    getName (str "userName") = some (str "UserName") ∧
    (Split (str "userName") 0x5F).length = 1 ∧
    (splitUpper (str "UserName")).length = 2 ∧
    [] ∉ Split (str "é") 0x5F ∧
    getName (str "é") = some [0xEF, 0xBF, 0xBD, 0xA9] ∧
    getName (str "é") ≠ some (str "É") := by
  decide

/-- C6: `getName v` faults exactly when a piece of `v` between underscores is
empty, that is when `v` is empty, starts with `_`, ends with `_` or contains
`__`; for every other `v` it returns a name. -/
theorem getName_fault_iff (v : GoString) :
    (getName v = none ↔ [] ∈ Split v 0x5F) ∧
    ([] ∈ Split v 0x5F ↔
      v = [] ∨ v.head? = some 0x5F ∨ v.getLast? = some 0x5F ∨ str "__" <:+: v) ∧
    (¬ (v = [] ∨ v.head? = some 0x5F ∨ v.getLast? = some 0x5F ∨ str "__" <:+: v) →
      ∃ name, getName v = some name) := by
  have hs : str "__" = [0x5F, 0x5F] := by decide
  rw [hs]
  refine ⟨getName_eq_none v, (nil_mem_Split_aux 0x5F v).2, fun h => ?_⟩
  have hne : [] ∉ Split v 0x5F := fun hm => h ((nil_mem_Split_aux 0x5F v).2.mp hm)
  exact ⟨_, getName_eq_some v hne⟩

theorem getName_fault_iff_witness :
    ∃ name, getName (str "user_name") = some name :=
  (getName_fault_iff (str "user_name")).2.2 (by decide)

theorem ReplaceAll_byte (s : GoString) (old new : Nat) :
    ReplaceAll s old [new] = s.map (fun b => if b = old then new else b) := by
  induction s with
  | nil => rfl
  | cons c cs ih =>
    simp only [ReplaceAll, List.flatMap_cons, List.map_cons] at ih ⊢
    rw [ih]
    by_cases h : c = old <;> simp [h]

theorem ReplaceAll_sanitize (s : GoString) :
    ReplaceAll (ReplaceAll s 0x22 [0x27]) 0x5C [0x2F] = sanitize s := by
  rw [ReplaceAll_byte, ReplaceAll_byte, sanitize, List.map_map]
  apply List.map_congr_left
  intro b _
  by_cases h1 : b = 0x22
  · simp [h1]
  · simp [h1]

/-- C7: the tag of a field is the back-quoted `gorm:"column:..;type:..;size:..;
comment:.."` text with the column name, the storage type, the length in
decimal and the sanitised comment; the sanitised comment has no double quote
and no backslash, has the length of the comment, and agrees with the comment
at every position but those of a double quote (now a single quote) and of a
backslash (now a forward slash). -/
theorem GetTag_spec (f : Field) :
    f.GetTag =
      str "`gorm:\"column:" ++ f.ColumnName ++ str ";type:" ++ f.ColumnType ++
        str ";size:" ++ formatInt f.ColumnLength ++ str ";comment:" ++
        sanitize f.Comment ++ str "\"`" ∧
    0x22 ∉ sanitize f.Comment ∧
    0x5C ∉ sanitize f.Comment ∧
    (sanitize f.Comment).length = f.Comment.length ∧
    ∀ (i b : Nat), f.Comment[i]? = some b →
      (sanitize f.Comment)[i]? =
        some (if b = 0x22 then 0x27 else if b = 0x5C then 0x2F else b) := by
  refine ⟨?_, ?_, ?_, ?_, ?_⟩
  · have hfmt : str "`gorm:\"column:%s;type:%s;size:%d;comment:%s\"`" =
        [0x60, 0x67, 0x6F, 0x72, 0x6D, 0x3A, 0x22, 0x63, 0x6F, 0x6C, 0x75, 0x6D,
          0x6E, 0x3A, 0x25, 0x73, 0x3B, 0x74, 0x79, 0x70, 0x65, 0x3A, 0x25, 0x73,
          0x3B, 0x73, 0x69, 0x7A, 0x65, 0x3A, 0x25, 0x64, 0x3B, 0x63, 0x6F, 0x6D,
          0x6D, 0x65, 0x6E, 0x74, 0x3A, 0x25, 0x73, 0x22, 0x60] := by decide
    have h1 : str "`gorm:\"column:" =
        [0x60, 0x67, 0x6F, 0x72, 0x6D, 0x3A, 0x22, 0x63, 0x6F, 0x6C, 0x75, 0x6D,
          0x6E, 0x3A] := by decide
    have h2 : str ";type:" = [0x3B, 0x74, 0x79, 0x70, 0x65, 0x3A] := by decide
    have h3 : str ";size:" = [0x3B, 0x73, 0x69, 0x7A, 0x65, 0x3A] := by decide
    have h4 : str ";comment:" =
        [0x3B, 0x63, 0x6F, 0x6D, 0x6D, 0x65, 0x6E, 0x74, 0x3A] := by decide
    have h5 : str "\"`" = [0x22, 0x60] := by decide
    rw [Field.GetTag, ReplaceAll_sanitize, hfmt, h1, h2, h3, h4, h5]
    simp [Sprintf]
  · simp only [sanitize, List.mem_map, not_exists, not_and]
    intro b _
    split
    · decide
    · split
      · decide
      · assumption
  · simp only [sanitize, List.mem_map, not_exists, not_and]
    intro b _
    split
    · decide
    · split
      · decide
      · assumption
  · simp [sanitize]
  · intro i b h
    simp [sanitize, List.getElem?_map, h]

theorem GetTag_spec_witness :
    (sanitize (str "a\"b\\c"))[1]? = some 0x27 ∧
    (sanitize (str "a\"b\\c"))[3]? = some 0x2F :=
  let f : Field :=
    { Name := [], Type_ := [], ColumnName := [], ColumnType := [],
      Comment := str "a\"b\\c", Default := [], ColumnLength := 0,
      IsNull := false, IsPrimaryKey := false }
  ⟨(GetTag_spec f).2.2.2.2 1 0x22 (by decide),
   (GetTag_spec f).2.2.2.2 3 0x5C (by decide)⟩

/-! ## The claims on the assembly loop -/

theorem hasIdentity_iff (tables : List Table) (t : GoString) :
    hasIdentity tables t = true ↔
      ∃ r ∈ tables, r.Name = t ∧ EqualFold r.ColumnName (str "id") = true := by
  simp only [hasIdentity, columnsOf, isIdentity, List.any_eq_true, List.mem_filter,
    decide_eq_true_eq]
  constructor
  · rintro ⟨r, ⟨hr, hn⟩, hid⟩; exact ⟨r, hr, hn, hid⟩
  · rintro ⟨r, hr, hn, hid⟩; exact ⟨r, ⟨hr, hn⟩, hid⟩

/-- C2: the loop completes exactly when no call of `getName` faults, and
after it, for a table `t` of the column list, no field of `tableOfFields[t]`
has a column name equal to `id` up to case, and `t` is a key of
`tableOfBaseModel` exactly when some column of `t` has such a name. -/
theorem assemble_identity (tables : List Table) :
    ((∃ st, assemble tables = some st) ↔ namesOk tables) ∧
    ∀ st, assemble tables = some st → ∀ t ∈ tableNames tables,
      (∃ fields, mapGet st.tableOfFields t = some fields ∧
        ∀ f ∈ fields, EqualFold f.ColumnName (str "id") = false) ∧
      (t ∈ mapKeys st.tableOfBaseModel ↔
        ∃ r ∈ tables, r.Name = t ∧ EqualFold r.ColumnName (str "id") = true) := by
  refine ⟨assemble_isSome_iff tables, fun st h t ht => ?_⟩
  have hI := Assembled_assemble tables st h
  refine ⟨⟨_, by rw [hI.fields t, if_pos ht], ?_⟩, ?_⟩
  · intro f hf
    obtain ⟨r, hr, rfl⟩ := List.mem_map.mp hf
    have := (List.mem_filter.mp hr).2
    simpa [newField, isIdentity] using this
  · rw [mem_mapKeys_iff, hI.base t, ← hasIdentity_iff]
    by_cases hh : hasIdentity tables t = true <;> simp [hh]

theorem assemble_identity_witness :
    ∃ st, assemble usersCatalog = some st ∧
      (str "users" ∈ mapKeys st.tableOfBaseModel ↔
        ∃ r ∈ usersCatalog, r.Name = str "users" ∧
          EqualFold r.ColumnName (str "id") = true) := by
  obtain ⟨st, h⟩ :=
    (assemble_identity usersCatalog).1.mpr (by unfold namesOk; decide)
  exact ⟨st, h,
    ((assemble_identity usersCatalog).2 st h (str "users") (by decide)).2⟩

/-- C3: after the loop, for a table `t` of the column list, the column names
of `tableOfFields[t]` are the column names of the records of `t`, in input
order, without those equal to `id` up to case; the loop completes exactly
when no call of `getName` faults. -/
theorem assemble_field_order (tables : List Table) :
    ((∃ st, assemble tables = some st) ↔ namesOk tables) ∧
    ∀ st, assemble tables = some st → ∀ t ∈ tableNames tables,
      ∃ fields, mapGet st.tableOfFields t = some fields ∧
        fields.map (fun f => f.ColumnName) =
          ((tables.filter (fun r => decide (r.Name = t))).filter
            (fun r => !EqualFold r.ColumnName (str "id"))).map
              (fun r => r.ColumnName) := by
  refine ⟨assemble_isSome_iff tables, fun st h t ht => ?_⟩
  have hI := Assembled_assemble tables st h
  refine ⟨_, by rw [hI.fields t, if_pos ht], ?_⟩
  rw [List.map_map]
  rfl

theorem assemble_field_order_witness :
    ∃ st fields, assemble usersCatalog = some st ∧
      mapGet st.tableOfFields (str "users") = some fields ∧
      fields.map (fun f => f.ColumnName) = [str "user_name", str "created_at"] := by
  obtain ⟨st, h⟩ :=
    (assemble_field_order usersCatalog).1.mpr (by unfold namesOk; decide)
  obtain ⟨fields, h1, h2⟩ :=
    (assemble_field_order usersCatalog).2 st h (str "users") (by decide)
  exact ⟨st, fields, h, h1, h2.trans (by decide)⟩

/-- C8, as amended: for a column list in which no call of `getName` of the
loop faults (every table name, and every column name that is not an identity
column, has no empty piece between underscores), the loop completes, and a
table `t` of the list all of whose columns are identity columns is a key of
`tableOfFields` with no field, is a key of `tableOfBaseModel`, has its
generated name in `tableOfName`, and exactly one worker is started for it,
with `fields` empty, `baseModel` equal to `"BaseModel"` and `table` equal to
`t`. -/
theorem assemble_identity_only (tables : List Table) (hok : namesOk tables) :
    ∃ st, assemble tables = some st ∧ ∀ t ∈ tableNames tables,
      (∀ r ∈ tables, r.Name = t → EqualFold r.ColumnName (str "id") = true) →
      mapGet st.tableOfFields t = some [] ∧
      t ∈ mapKeys st.tableOfBaseModel ∧
      ∃ model, getName t = some model ∧ mapGet st.tableOfName t = some model ∧
        ∃ pk, (workers st).filter (fun a => decide (a.table = t)) =
          [{ baseModel := str "BaseModel", packages := pk, table := t,
             model := model, fields := [] }] := by
  obtain ⟨st, h⟩ := (assemble_isSome_iff tables).mpr hok
  refine ⟨st, h, fun t ht hall => ?_⟩
  have hI := Assembled_assemble tables st h
  obtain ⟨r0, hr0, hr0n⟩ := List.mem_map.mp ht
  have hr0n : r0.Name = t := hr0n
  have hF : mapGet st.tableOfFields t = some [] := by
    rw [hI.fields t, if_pos ht]
    have : fieldColumns tables t = [] := by
      simp only [fieldColumns, columnsOf, List.filter_filter, List.filter_eq_nil_iff,
        Bool.and_eq_true, decide_eq_true_eq, Bool.not_eq_true', not_and, isIdentity]
      intro r hr hid hn
      rw [hall r hr hn] at hid
      exact absurd hid (by simp)
    rw [this]; rfl
  have hB : mapGet st.tableOfBaseModel t = some () := by
    rw [hI.base t, if_pos]
    exact (hasIdentity_iff tables t).mpr ⟨r0, hr0, hr0n, hall r0 hr0 hr0n⟩
  obtain ⟨model, hmodel⟩ : ∃ model, getName t = some model :=
    Option.ne_none_iff_exists'.mp (hr0n ▸ (hok r0 hr0).1)
  have hN : mapGet st.tableOfName t = some model := by
    rw [hI.name t, if_pos ht, hmodel]
  refine ⟨hF, (mem_mapKeys_iff _ t).mpr (by simp [hB]), model, hmodel, hN, ?_⟩
  refine ⟨(renderArgs st t []).packages, ?_⟩
  have hfil : (workers st).filter (fun a => decide (a.table = t)) =
      (st.tableOfFields.filter (fun e => decide (e.1 = t))).map
        (fun e => renderArgs st e.1 e.2) := by
    rw [workers, List.filter_map]
    rfl
  rw [hfil, filter_key_eq st.tableOfFields t [] hI.nodup hF]
  simp [renderArgs, hN, hB]

theorem assemble_identity_only_witness :
    namesOk logsCatalog ∧
    ∃ st, assemble logsCatalog = some st ∧
      mapGet st.tableOfFields (str "logs") = some [] ∧
      str "logs" ∈ mapKeys st.tableOfBaseModel ∧
      ∃ pk, (workers st).filter (fun a => decide (a.table = str "logs")) =
        [{ baseModel := str "BaseModel", packages := pk, table := str "logs",
           model := str "Logs", fields := [] }] := by
  have hok : namesOk logsCatalog := by unfold namesOk; decide
  refine ⟨hok, ?_⟩
  obtain ⟨st, h, hall⟩ := assemble_identity_only logsCatalog hok
  obtain ⟨h1, h2, model, h3, _, pk, h5⟩ := hall (str "logs") (by decide) (by decide)
  have hm : model = str "Logs" := by
    have h6 : getName (str "logs") = some (str "Logs") := by decide
    rw [h6] at h3
    exact (Option.some.inj h3).symm
  subst hm
  exact ⟨st, h, h1, h2, pk, h5⟩

/-- C8 as stated fails: every column of table `_logs` is an identity column,
yet `getName` faults on the name `_logs` in the first pass of the loop, so
that the loop ends in the fault: there are no maps after it, `_logs` is
registered nowhere and no worker is started. -/
theorem assemble_identity_only_counterexample :
    str "_logs" ∈ tableNames underscoreCatalog ∧
    (∀ r ∈ underscoreCatalog, r.Name = str "_logs" →
      EqualFold r.ColumnName (str "id") = true) ∧
    getName (str "_logs") = none ∧
    assemble underscoreCatalog = none ∧
    (assemble underscoreCatalog).map workers = none := by
  refine ⟨by decide, by decide, by decide, by decide, by decide⟩

/-! ## The scenarios -/

set_option maxRecDepth 100000

/-- C9: for the catalog of table `users` with the columns `id` (int, key
PRI), `user_name` (varchar, length 64) and `created_at` (datetime), the loop
and the one worker give the file `users.go` with the text `usersText`: it
declares `type Users struct` with `BaseModel` embedded, has the field lines
of `UserName string` (tag with `column:user_name;type:varchar;size:64`) and
of `CreatedAt time.Time`, an import block with `"time"` alone, `Table()`
returning `"users"` and `TableName()` returning `m.Table()`, and no field
line for `id`. -/
theorem users_scenario :
    (assemble usersCatalog).map workers = some [usersArgs] ∧
    fileName usersArgs.table = str "users.go" ∧
    templateOfModel usersArgs = usersText ∧
    str "\ntype Users struct \x7b\n\tBaseModel\n" <:+: usersText ∧
    str "\n\tUserName string  `gorm:\"column:user_name;type:varchar;size:64;" <:+:
      usersText ∧
    str "\n\tCreatedAt time.Time  `gorm:" <:+: usersText ∧
    str "\nimport (\n\t\"time\"\n\t\n)\n" <:+: usersText ∧
    str "\nfunc (m Users) Table() string \x7b\n\treturn \"users\"\n\x7d\n" <:+:
      usersText ∧
    str "\nfunc (m Users) TableName() string \x7b\n\treturn m.Table()\n\x7d" <:+:
      usersText ∧
    ¬ str "column:id" <:+: usersText ∧
    ¬ str "\n\tId " <:+: usersText := by
  refine ⟨by decide, by decide, by decide, by decide, by decide, by decide,
    by decide, by decide, by decide, by decide, by decide⟩

/-- C4 fails on the code: the identity column `id` of table `events` has the
storage type `datetime`; the loop puts `"time"` in `tableOfPackages["events"]`
though `tableOfFields["events"]` is empty, and the worker of `events` imports
`"time"` for a model without a field. -/
theorem events_package_without_field :
    (assemble eventsCatalog).map (fun st =>
        (mapGet st.tableOfFields (str "events")).map (fun fs => fs.length)) =
      some (some 0) ∧
    (assemble eventsCatalog).map (fun st =>
        (mapGet st.tableOfPackages (str "events")).map mapKeys) =
      some (some [str "time"]) ∧
    (assemble eventsCatalog).map workers = some [eventsArgs] ∧
    str "\nimport (\n\t\"time\"\n\t\n)\n" <:+: templateOfModel eventsArgs := by
  refine ⟨by decide, by decide, by decide, by decide⟩

/-- C10 fails on the code: for the catalog of table `logs` with the single
column `id`, the first effect of `main` after the loop starts the base-model
worker, and `os.MkdirAll` comes second, before the worker of `logs`. -/
theorem logs_effects (dir : GoString) :
    (assemble logsCatalog).map (mainEffects dir) =
      some [ Effect.startBaseModel dir,
             Effect.mkdirAll dir,
             Effect.startTable
               { baseModel := str "BaseModel", packages := [], table := str "logs",
                 model := str "Logs", fields := [] },
             Effect.wait ] := by
  have h : assemble logsCatalog = some
      { tableOfFields := [(str "logs", [])],
        tableOfBaseModel := [(str "logs", ())],
        tableOfName := [(str "logs", str "Logs")],
        tableOfPackages := [(str "logs", [])] } := by decide
  rw [h]
  have hw : workers
      { tableOfFields := [(str "logs", [])],
        tableOfBaseModel := [(str "logs", ())],
        tableOfName := [(str "logs", str "Logs")],
        tableOfPackages := [(str "logs", [])] } =
      [{ baseModel := str "BaseModel", packages := [], table := str "logs",
         model := str "Logs", fields := [] }] := by decide
  simp [mainEffects, hw]

end Gotools
